import Mathlib

/-!
Verification of the `river` shared-state builder library.

The development shallowly embeds the C++ sources (builder.hpp/.cpp,
channel.hpp/.cpp, rivulet.hpp/.cpp, link.hpp, river.hpp, lock.hpp) into
Lean.  Shared `std::shared_ptr<Link>` objects are modelled as indices into
an explicit arena (`links : List Link`), built rivers as an append-only
list of byte buffers (`rivers`), and the metadata tree as a mutual
inductive `Node`/`Forest`.  Fields of `Link` that C++ leaves
default-initialised (`new Link` gives indeterminate `size_t` members and
null smart pointers) are modelled as `Option` values that start out
`none`; an operation that would dereference a null pointer or read an
indeterminate offset is modelled in an `Option` monad (`none` = undefined
behaviour) or by storing/propagating `none`.
-/

namespace river

/-- Error codes returned by the builder interface (builder.hpp). -/
def ERR_INVALID : Int := 1

/-- Error code for a lookup of a path that does not exist. -/
def ERR_NOTFOUND : Int := 2

/-- Error code for a duplicate channel or lock declaration. -/
def ERR_DUPE : Int := 3

/-- Error code for calling a root-only operation on a sub-builder. -/
def ERR_NOTROOT : Int := 4

/-- Channel metadata (builder.hpp `ChannelInfo<T>`): the initial value is
held as its byte serialization; the channel size is `sizeof(T)`, i.e. the
length of that byte list. -/
structure ChannelInfo where
  init_val : List Nat
deriving DecidableEq

/-- Size of the channel type in bytes (`ChannelInfo<T>::size()`). -/
def ChannelInfo.size (c : ChannelInfo) : Nat := c.init_val.length

/-- One `Link` object (link.hpp).  `river` is the shared pointer to the
built river, modelled as an index into the river arena; `lock` is the
shared pointer to a Lock capability, modelled as an abstract lock id.
The offset/size fields are `size_t` members that `new Link` leaves
indeterminate; `none` models "no defined value has been stored". -/
structure Link where
  river : Option Nat
  channel_offset : Option Nat
  rivulet_offset : Option Nat
  rivulet_size : Option Nat
  lock : Option Nat
deriving DecidableEq

/-- A freshly allocated `Link` (`new Link`): null pointers, indeterminate
offsets. -/
def Link.fresh : Link := ⟨none, none, none, none, none⟩

/-- Reads a link from the arena.  Link ids handed out by the builder are
always in range; the default is irrelevant for real runs. -/
def getLink (ls : List Link) (i : Nat) : Link := ls.getD i Link.fresh

/-- Mutates one link in the arena (a store through a `shared_ptr<Link>`). -/
def setLink (ls : List Link) (i : Nat) (f : Link → Link) : List Link :=
  ls.set i (f (getLink ls i))

mutual
/-- A node of the metadata tree (builder.hpp `Node`).  The link field
holds the arena index of the node's `shared_ptr<Link>`, if any. -/
inductive Node where
  | mk (name : List Char) (channel_info : Option ChannelInfo)
       (link : Option Nat) (children : Forest)
/-- The ordered children list of a node (`std::vector<std::shared_ptr<Node>>`),
insertion order preserved. -/
inductive Forest where
  | nil
  | cons (n : Node) (f : Forest)
end

/-- Name of a node (a single path token). -/
def Node.name : Node → List Char
  | .mk nm _ _ _ => nm

/-- Channel info of a node, present iff the node is a declared channel. -/
def Node.channel_info : Node → Option ChannelInfo
  | .mk _ ci _ _ => ci

/-- Link id of a node, present iff a Link object is attached. -/
def Node.link : Node → Option Nat
  | .mk _ _ lk _ => lk

/-- Children of a node. -/
def Node.children : Node → Forest
  | .mk _ _ _ f => f

/-- First child with the given name (the search loop of
`Builder::insert_node`). -/
def forestFind : Forest → List Char → Option Node
  | .nil, _ => none
  | .cons c rest, t => if c.name = t then some c else forestFind rest t

/-- Replaces the first child with the given name (in-place mutation of the
found child in `Builder::insert_node`). -/
def forestReplace : Forest → List Char → Node → Forest
  | .nil, _, _ => .nil
  | .cons c rest, t, c' =>
    if c.name = t then .cons c' rest else .cons c (forestReplace rest t c')

/-- Appends a child at the end (`children.push_back`). -/
def forestAppend : Forest → Node → Forest
  | .nil, c => .cons c .nil
  | .cons c rest, c' => .cons c (forestAppend rest c')

/-- Lookup of the node at a path without creating (`Builder::insert_node`
with `create = false`; `node_ret` stays null when the path is absent). -/
def find_node : Node → List (List Char) → Option Node
  | n, [] => some n
  | n, t :: ts =>
    match forestFind n.children t with
    | some c => find_node c ts
    | none => none

/-- Insertion of the node at a path with creation (`Builder::insert_node`
with `create = true`).  Returns the updated tree together with the node at
the full path (the `node_ret` out-parameter, which aliases into the
tree). -/
def insert_node : Node → List (List Char) → Node × Node
  | n, [] => (n, n)
  | .mk nm ci lk f, t :: ts =>
    match forestFind f t with
    | some c =>
      let r := insert_node c ts
      (.mk nm ci lk (forestReplace f t r.1), r.2)
    | none =>
      let r := insert_node (.mk t none none .nil) ts
      (.mk nm ci lk (forestAppend f r.1), r.2)

/-- Applies a mutation to the node at a path (a store through the aliasing
`node_ret` pointer returned by `insert_node`). -/
def update_node : Node → List (List Char) → (Node → Node) → Node
  | n, [], f => f n
  | n, t :: ts, f =>
    match forestFind n.children t with
    | some c => .mk n.name n.channel_info n.link
        (forestReplace n.children t (update_node c ts f))
    | none => n

mutual
/-- Boolean "for every node of the subtree" (the shape of
`Builder::for_each_node` used with a pure predicate). -/
def allNodesB (p : Node → Bool) : Node → Bool
  | .mk nm ci lk f => p (.mk nm ci lk f) && allForestB p f
/-- Boolean "for every node of every subtree of the forest". -/
def allForestB (p : Node → Bool) : Forest → Bool
  | .nil => true
  | .cons c rest => allNodesB p c && allForestB p rest
end

mutual
/-- Boolean "for some node of the subtree". -/
def anyNodeB (p : Node → Bool) : Node → Bool
  | .mk nm ci lk f => p (.mk nm ci lk f) || anyForestB p f
/-- Boolean "for some node of every subtree of the forest". -/
def anyForestB (p : Node → Bool) : Forest → Bool
  | .nil => false
  | .cons c rest => anyNodeB p c || anyForestB p rest
end

mutual
/-- Sum of the channel sizes over a whole subtree, the accumulation done by
the `sum_size` lambda in `Builder::build_node` via `for_each_node`. -/
def sum_size : Node → Nat
  | .mk _ ci _ f =>
    (match ci with
     | some c => c.size
     | none => 0) + sum_size_forest f
/-- Sum of channel sizes over every subtree of the forest. -/
def sum_size_forest : Forest → Nat
  | .nil => 0
  | .cons c rest => sum_size c + sum_size_forest rest
end

mutual
/-- The `check_for_locks` scan of `Builder::lock`: preorder traversal with
early exit, `some true` once a node whose Link holds a lock is found,
`some false` if none is, and `none` when a node without a Link is reached
first (the `assert(node->link)` fails / null dereference). -/
def check_for_locks (ls : List Link) : Node → Option Bool
  | .mk _ _ lk f =>
    match lk with
    | none => none
    | some lid =>
      if (getLink ls lid).lock.isSome then some true
      else check_forest ls f
/-- The forest part of the `check_for_locks` traversal. -/
def check_forest (ls : List Link) : Forest → Option Bool
  | .nil => some false
  | .cons c rest =>
    match check_for_locks ls c with
    | none => none
    | some true => some true
    | some false => check_forest ls rest
end

mutual
/-- The `assign_lock` pass of `Builder::lock`: stores the same shared lock
reference into every Link of the subtree.  `none` models the
`assert(node->link)` failure (a node without a Link). -/
def assign_lock (lk : Nat) : Node → List Link → Option (List Link)
  | .mk _ _ nlk f, ls =>
    match nlk with
    | none => none
    | some lid =>
      assign_forest lk f (setLink ls lid (fun l => { l with lock := some lk }))
/-- The forest part of the `assign_lock` traversal. -/
def assign_forest (lk : Nat) : Forest → List Link → Option (List Link)
  | .nil, ls => some ls
  | .cons c rest, ls =>
    match assign_lock lk c ls with
    | none => none
    | some ls' => assign_forest lk rest ls'
end

mutual
/-- The `remove_link` pass at the end of `Builder::build`: detaches the
Link from every node (`node->link.reset()`) without touching the Link
objects themselves. -/
def remove_link : Node → Node
  | .mk nm ci _ f => .mk nm ci none (remove_link_forest f)
/-- The forest part of the `remove_link` pass. -/
def remove_link_forest : Forest → Forest
  | .nil => .nil
  | .cons c rest => .cons (remove_link c) (remove_link_forest rest)
end

mutual
/-- All link ids attached to nodes of a subtree, in preorder. -/
def node_lids : Node → List Nat
  | .mk _ _ lk f =>
    (match lk with
     | some lid => [lid]
     | none => []) ++ forest_lids f
/-- All link ids attached to nodes of a forest. -/
def forest_lids : Forest → List Nat
  | .nil => []
  | .cons c rest => node_lids c ++ forest_lids rest
end

mutual
/-- The recursive `Builder::build_node` traversal for river number `rid`.
Threads the link arena and the river storage.  Step one links the node's
Link to the new river and, for a channel node, appends the initial value
bytes at the end of storage recording the resulting offset.  Step two
recurses into the children.  Step three computes the rivulet size and
offset: the size is the channel-size sum over the children's subtrees, the
offset is `children[0]->link->channel_offset` (0 when there are no
children).  A null first-child Link is a null dereference, modelled as
`none`; a never-assigned `channel_offset` of the first child is an
indeterminate read, modelled by storing `none`. -/
def build_node (rid : Nat) : Node → List Link → List Nat → Option (List Link × List Nat)
  | .mk _ ci lk f, ls, st =>
    let step1 : List Link × List Nat :=
      match lk with
      | none => (ls, st)
      | some lid =>
        let ls1 := setLink ls lid (fun l => { l with river := some rid })
        match ci with
        | none => (ls1, st)
        | some c =>
          (setLink ls1 lid (fun l => { l with channel_offset := some st.length }),
           st ++ c.init_val)
    match build_forest rid f step1.1 step1.2 with
    | none => none
    | some (ls2, st2) =>
      match lk with
      | none => some (ls2, st2)
      | some lid =>
        let sz := sum_size_forest f
        match f with
        | .nil =>
          some (setLink ls2 lid
            (fun l => { l with rivulet_size := some sz, rivulet_offset := some 0 }), st2)
        | .cons c _ =>
          match c.link with
          | none => none
          | some clid =>
            some (setLink ls2 lid
              (fun l => { l with rivulet_size := some sz, rivulet_offset := (getLink ls2 clid).channel_offset }), st2)
/-- The children loop of `Builder::build_node`. -/
def build_forest (rid : Nat) : Forest → List Link → List Nat → Option (List Link × List Nat)
  | .nil, ls, st => some (ls, st)
  | .cons c rest, ls, st =>
    match build_node rid c ls st with
    | none => none
    | some (ls', st') => build_forest rid rest ls' st'
end

/-- The `std::getline(ss, token, '.')` loop of `Builder::tokenize_path`:
a token is emitted for every consumed dot, and the final segment is
emitted only when it is nonempty (at end of input `getline` fails after
extracting zero characters).  `acc` is the token being accumulated. -/
def splitDots : List Char → List Char → List (List Char)
  | [], acc => if acc.isEmpty then [] else [acc]
  | c :: rest, acc =>
    if c = '.' then acc :: splitDots rest []
    else splitDots rest (acc ++ [c])

/-- Character validity check of `Builder::tokenize_path`: letters, digits,
underscore and dot (`std::isalnum` in the C locale). -/
def valid_char (c : Char) : Bool := c.isAlphanum || c = '_' || c = '.'

/-- The full `Builder::tokenize_path`: splits on dots, then rejects when no
token was produced, or a token is empty, or a token holds an invalid
character.  `none` models `ERR_INVALID`. -/
def tokenize_path (p : String) : Option (List (List Char)) :=
  let toks := splitDots p.data []
  if toks.isEmpty then none
  else if toks.all (fun t => !t.isEmpty && t.all valid_char) then some toks
  else none

/-- The whole state reachable from one root `Builder`: the metadata tree,
the arena of `Link` objects ever allocated (handles keep indices into it
even after `remove_link` detaches the tree), the storages of all rivers
built so far, and the root flag. -/
structure BState where
  root : Node
  links : List Link
  rivers : List (List Nat)
  is_root : Bool

/-- The state of a freshly constructed root `Builder` (builder.cpp
`Builder::Builder`): an empty unnamed root node, no links, no rivers. -/
def initBuilder : BState :=
  ⟨.mk [] none none .nil, [], [], true⟩

/-- Ensures a node-level Link exists (`if (!node->link) link.reset(new Link)`),
returning the link id and the possibly extended arena. -/
def ensureLink (cur : Option Nat) (ls : List Link) : Nat × List Link :=
  match cur with
  | some l => (l, ls)
  | none => (ls.length, ls ++ [Link.fresh])

/-- The `Builder::channel` template member (builder.hpp): tokenize, insert
nodes along the path, fail with `ERR_DUPE` when the terminal node already
has channel info, otherwise record size and initial value, lazily create
the Link, and hand the link id to the returned handle.  The returned
`Option Nat` is the handle's link reference (`none` = the out-parameter
handle was not touched). -/
def channel (s : BState) (path : String) (init_val : List Nat) :
    Int × BState × Option Nat :=
  match tokenize_path path with
  | none => (ERR_INVALID, s, none)
  | some toks =>
    let r := insert_node s.root toks
    if r.2.channel_info.isSome then (ERR_DUPE, { s with root := r.1 }, none)
    else
      let al := ensureLink r.2.link s.links
      let root' := update_node r.1 toks (fun m =>
        .mk (toks.getLastD []) (some ⟨init_val⟩) (some al.1) m.children)
      (0, { s with root := root', links := al.2 }, some al.1)

/-- The `Builder::rivulet` member (builder.cpp): tokenize, look up the node
without creating, fail with `ERR_NOTFOUND` when absent, lazily create the
Link, hand the link id to the returned handle. -/
def rivulet (s : BState) (path : String) : Int × BState × Option Nat :=
  match tokenize_path path with
  | none => (ERR_INVALID, s, none)
  | some toks =>
    match find_node s.root toks with
    | none => (ERR_NOTFOUND, s, none)
    | some nd =>
      let al := ensureLink nd.link s.links
      let root' := update_node s.root toks (fun m =>
        .mk m.name m.channel_info (some al.1) m.children)
      (0, { s with root := root', links := al.2 }, some al.1)

/-- The `Builder::lock` member (builder.cpp): tokenize, look up the node,
scan the subtree for an existing lock (`ERR_DUPE` when found), then assign
the same shared lock reference to every Link of the subtree.  The outer
`Option` is `none` when a traversal reaches a node without a Link (the
`assert(node->link)` of both passes). -/
def lock (s : BState) (path : String) (lk : Nat) : Option (Int × BState) :=
  match tokenize_path path with
  | none => some (ERR_INVALID, s)
  | some toks =>
    match find_node s.root toks with
    | none => some (ERR_NOTFOUND, s)
    | some nd =>
      match check_for_locks s.links nd with
      | none => none
      | some true => some (ERR_DUPE, s)
      | some false =>
        match assign_lock lk nd s.links with
        | none => none
        | some ls' => some (0, { s with links := ls' })

/-- The root `Builder::build` (builder.cpp): refuse on a non-root builder,
allocate a new empty river (river.hpp documents a default-constructed
`River` as empty), run `build_node` from the tree root, detach every Link
from the tree, and append the new storage to the river arena.  The
returned `Option Nat` is the new river's index.  The outer `Option` is
`none` when `build_node` hits undefined behaviour. -/
def build (s : BState) : Option (Int × BState × Option Nat) :=
  if s.is_root then
    match build_node s.rivers.length s.root s.links [] with
    | none => none
    | some (ls', st) =>
      some (0, ⟨remove_link s.root, ls', s.rivers ++ [st], s.is_root⟩,
            some s.rivers.length)
  else some (ERR_NOTROOT, s, none)

/-- Modelled from the spec: `Linkable::linked()` (declared in link.hpp, its
definition is not among the sources).  Per §4.4, a handle is linked
exactly when its Link has a non-null storage reference. -/
def linked (s : BState) (h : Option Nat) : Bool :=
  match h with
  | none => false
  | some lid => (getLink s.links lid).river.isSome

/-- Byte read from a storage buffer (`memcpy` out of storage). -/
def readBytes (st : List Nat) (off sz : Nat) : List Nat :=
  (st.drop off).take sz

/-- Byte write into a storage buffer (`memcpy` into storage). -/
def writeBytes (st : List Nat) (off : Nat) (bs : List Nat) : List Nat :=
  st.take off ++ bs ++ st.drop (off + bs.length)

/-- Result of a rivulet read: `ub` models a copy from an indeterminate
offset (undefined behaviour), `noop` the silent do-nothing cases, `ok bs`
the bytes copied into the destination. -/
inductive RwRes where
  | ub
  | noop
  | ok (bs : List Nat)
deriving DecidableEq

/-- The `Channel<T>::get` / `ChannelBase::serialize` pair (channel.hpp/.cpp):
a value-initialised `T` (all-zero bytes) that `serialize` overwrites from
storage when the handle is linked.  `sz` is `sizeof(T)`.  `none` models a
read at an indeterminate channel offset. -/
def channel_get (s : BState) (h : Option Nat) (sz : Nat) : Option (List Nat) :=
  match h with
  | none => some (List.replicate sz 0)
  | some lid =>
    let l := getLink s.links lid
    match l.river with
    | none => some (List.replicate sz 0)
    | some rid =>
      match l.channel_offset with
      | none => none
      | some off => some (readBytes (s.rivers.getD rid []) off sz)

/-- The `Channel<T>::set` / `ChannelBase::deserialize` pair: a silent no-op
when unlinked, otherwise a byte copy into storage at the channel offset. -/
def channel_set (s : BState) (h : Option Nat) (bs : List Nat) : Option BState :=
  match h with
  | none => some s
  | some lid =>
    let l := getLink s.links lid
    match l.river with
    | none => some s
    | some rid =>
      match l.channel_offset with
      | none => none
      | some off =>
        some { s with rivers :=
          s.rivers.set rid (writeBytes (s.rivers.getD rid []) off bs) }

/-- The `Rivulet::read` member (rivulet.cpp): no-op when `dest` is null or
the handle is unlinked, otherwise a copy of `rivulet_size` bytes from
storage at `rivulet_offset` into the destination. -/
def rivulet_read (s : BState) (h : Option Nat) (destNull : Bool) : RwRes :=
  if destNull then .noop
  else
    match h with
    | none => .noop
    | some lid =>
      let l := getLink s.links lid
      match l.river with
      | none => .noop
      | some rid =>
        match l.rivulet_offset, l.rivulet_size with
        | some off, some sz => .ok (readBytes (s.rivers.getD rid []) off sz)
        | _, _ => .ub

/-- The `Rivulet::write` member: no-op when `src` is null or the handle is
unlinked, otherwise a copy of `rivulet_size` bytes from the source into
storage at `rivulet_offset`.  `none` models the indeterminate-offset
copy. -/
def rivulet_write (s : BState) (h : Option Nat) (src : Option (List Nat)) :
    Option BState :=
  match src with
  | none => some s
  | some bs =>
    match h with
    | none => some s
    | some lid =>
      let l := getLink s.links lid
      match l.river with
      | none => some s
      | some rid =>
        match l.rivulet_offset, l.rivulet_size with
        | some off, some sz =>
          some { s with rivers :=
            s.rivers.set rid (writeBytes (s.rivers.getD rid []) off (bs.take sz)) }
        | _, _ => none

/-- The `Rivulet::size` member: 0 when unlinked, otherwise the Link's
`rivulet_size` (whose absence is an indeterminate read, hence `none`). -/
def rivulet_size (s : BState) (h : Option Nat) : Option Nat :=
  match h with
  | none => some 0
  | some lid =>
    let l := getLink s.links lid
    match l.river with
    | none => some 0
    | some _ => l.rivulet_size

/-- Character class of the spec's path grammar (§6): letters, digits and
underscore only, the dot being the separator. -/
def good_char (c : Char) : Bool := c.isAlphanum || c = '_'

/-- Joining tokens with a dot separator (the spec's re-joining in §8). -/
def joinDots : List (List Char) → List Char
  | [] => []
  | [t] => t
  | t :: ts => t ++ '.' :: joinDots ts

/-- Drops one trailing dot of a path, if present. -/
def stripTrailingDot (p : List Char) : List Char :=
  if p.getLast? = some '.' then p.dropLast else p

/-- Node predicate: the node carries a Link whose arena index is in
range.  Real runs only ever attach in-range indices. -/
def linkOKB (len : Nat) (m : Node) : Bool :=
  match m.link with
  | some lid => decide (lid < len)
  | none => false

/-- Node predicate: the node's Link holds some lock. -/
def lockSetB (ls : List Link) (m : Node) : Bool :=
  match m.link with
  | some lid => (getLink ls lid).lock.isSome
  | none => false

/-- Node predicate: the node's Link holds exactly the lock `lk`. -/
def lockEqB (ls : List Link) (lk : Nat) (m : Node) : Bool :=
  match m.link with
  | some lid => (getLink ls lid).lock == some lk
  | none => false

/-- Node predicate: the node's Link (if any) holds the same lock in both
arenas. -/
def sameLockB (ls ls' : List Link) (m : Node) : Bool :=
  match m.link with
  | some lid => (getLink ls' lid).lock == (getLink ls lid).lock
  | none => true

/-- Node predicate: the node's Link (if any) is not among the given link
ids. -/
def outsideB (L : List Nat) (m : Node) : Bool :=
  match m.link with
  | some lid => !(L.contains lid)
  | none => true

/-- Node predicate: the node carries no Link. -/
def noLinkB (m : Node) : Bool := m.link.isNone

/-- Node predicate: the node carries a Link. -/
def hasLinkB (m : Node) : Bool := m.link.isSome

/-- Example run: a single four-byte channel `foo` declared on a fresh
builder (the rebuild scenario). -/
def exReb1 : BState := (channel initBuilder "foo" [1, 2, 3, 4]).2.1

/-- The state after the first `build()` of the rebuild scenario. -/
def exReb2 : BState := ((build exReb1).getD (0, exReb1, none)).2.1

/-- Example run: channels `a` and `r.x.c` and rivulet handles at `r.x` and
at `r`, so that the node `r` has a first child `x` that is not a channel
(the rivulet-offset scenario). -/
def exRiv1 : BState := (channel initBuilder "a" [9]).2.1

/-- Second step of the rivulet-offset scenario. -/
def exRiv2 : BState := (channel exRiv1 "r.x.c" [7]).2.1

/-- Third step of the rivulet-offset scenario (linking `r.x`). -/
def exRiv3 : BState := (rivulet exRiv2 "r.x").2.1

/-- Fourth step of the rivulet-offset scenario (linking `r`). -/
def exRiv4 : BState := (rivulet exRiv3 "r").2.1

/-- The built state of the rivulet-offset scenario. -/
def exRiv5 : BState := ((build exRiv4).getD (0, exRiv4, none)).2.1

/-- Example run for the lock claims: channel `g.a` and a rivulet handle at
`g`, so every node of the `g` subtree carries a Link. -/
def exLock1 : BState := (rivulet ((channel initBuilder "g.a" [5]).2.1) "g").2.1

/-- Example run for the lock-conflict claim: two disjoint subtrees `a`
(with channel `a.b`) and `c` (with channel `c.d`), every node of both
subtrees carrying a Link. -/
def exLock2 : BState :=
  (rivulet ((rivulet ((channel ((channel initBuilder "a.b" [1]).2.1) "c.d" [2]).2.1) "a").2.1) "c").2.1

/-- Example run for the duplicate-channel claim: a single one-byte channel
`foo` with initial value 5. -/
def exDup1 : BState := (channel initBuilder "foo" [5]).2.1

/-- The built state of the duplicate-channel scenario (built after the
failed duplicate declaration left the state unchanged). -/
def exDup2 : BState := ((build exDup1).getD (0, exDup1, none)).2.1

/-- The duplicate-channel scenario state after setting channel `foo` to 8
through its handle. -/
def exDup3 : BState := ((channel_set exDup2 (some 0) [8]).getD exDup2)

/-- The `g` subtree of the one-subtree lock scenario. -/
def exGnode : Node :=
  (find_node exLock1.root [['g']]).getD (.mk [] none none .nil)

/-- The `a` subtree of the two-subtree lock scenario. -/
def exANode : Node :=
  (find_node exLock2.root [['a']]).getD (.mk [] none none .nil)

/-- The `a.b` node of the two-subtree lock scenario. -/
def exABnode : Node :=
  (find_node exLock2.root [['a'], ['b']]).getD (.mk [] none none .nil)

/-- The `c` subtree of the two-subtree lock scenario. -/
def exCnode : Node :=
  (find_node exLock2.root [['c']]).getD (.mk [] none none .nil)

/-- Arena updates preserve the arena length. -/
theorem length_setLink (ls : List Link) (i : Nat) (f : Link → Link) :
    (setLink ls i f).length = ls.length := by
  simp [setLink]

/-- Reading back an in-range arena store. -/
theorem getLink_setLink_self (ls : List Link) (i : Nat) (f : Link → Link)
    (h : i < ls.length) : getLink (setLink ls i f) i = f (getLink ls i) := by
  simp [setLink, getLink, List.getD, List.getElem?_set_self, h]

/-- Arena stores do not affect other indices. -/
theorem getLink_setLink_ne (ls : List Link) (i j : Nat) (f : Link → Link)
    (h : i ≠ j) : getLink (setLink ls i f) j = getLink ls j := by
  simp [setLink, getLink, List.getD, List.getElem?_set_ne, h]

/-- C9: a handle whose Link has no built storage behaves as a silent no-op:
`get` returns the all-zero default value, `set`, `read` and `write` leave
the state unchanged, `read`/`write` with a null pointer are no-ops, and
`size` returns 0; no runtime handle operation reports an error. -/
theorem unlinked_handle_noop (s : BState) (h : Option Nat) (sz : Nat)
    (bs : List Nat) (src : List Nat) (d : Bool)
    (hu : linked s h = false) :
    channel_get s h sz = some (List.replicate sz 0) ∧
    channel_set s h bs = some s ∧
    rivulet_read s h d = RwRes.noop ∧
    rivulet_write s h (some src) = some s ∧
    rivulet_size s h = some 0 ∧
    (∀ h' : Option Nat, rivulet_read s h' true = RwRes.noop) ∧
    (∀ h' : Option Nat, rivulet_write s h' none = some s) := by
  have hnull : ∀ h' : Option Nat, rivulet_read s h' true = RwRes.noop := by
    intro h'
    simp [rivulet_read]
  have hwnull : ∀ h' : Option Nat, rivulet_write s h' none = some s := by
    intro h'
    simp [rivulet_write]
  match h with
  | none =>
    refine ⟨rfl, rfl, ?_, rfl, rfl, hnull, hwnull⟩
    cases d <;> simp [rivulet_read]
  | some lid =>
    simp only [linked] at hu
    have hr : (getLink s.links lid).river = none := by
      cases hrv : (getLink s.links lid).river with
      | none => rfl
      | some rid => rw [hrv] at hu; simp at hu
    refine ⟨?_, ?_, ?_, ?_, ?_, hnull, hwnull⟩
    · simp [channel_get, hr]
    · simp [channel_set, hr]
    · cases d <;> simp [rivulet_read, hr]
    · simp [rivulet_write, hr]
    · simp [rivulet_size, hr]

/-- Witness for the unlinked-handle claim: a handle never linked by any
declaration, on a fresh builder state. -/
theorem unlinked_handle_noop_witness :
    channel_get initBuilder none 2 = some (List.replicate 2 0) ∧
    channel_set initBuilder none [1] = some initBuilder ∧
    rivulet_read initBuilder none false = RwRes.noop ∧
    rivulet_write initBuilder none (some [1]) = some initBuilder ∧
    rivulet_size initBuilder none = some 0 ∧
    (∀ h' : Option Nat, rivulet_read initBuilder h' true = RwRes.noop) ∧
    (∀ h' : Option Nat, rivulet_write initBuilder h' none = some initBuilder) :=
  unlinked_handle_noop initBuilder none 2 [1] [1] false (by decide)

/-- C10: when `channel` or `rivulet` fails it returns a nonzero code and
hands no Link to the output handle; a handle without a Link is unlinked in
every state (in particular after any later build), so its operations keep
the silent no-op behaviour. -/
theorem failed_declaration_leaves_handle_unlinked :
    (∀ (s : BState) (path : String) (v : List Nat) (r : Int) (s' : BState)
        (ho : Option Nat), channel s path v = (r, s', ho) → r ≠ 0 → ho = none) ∧
    (∀ (s : BState) (path : String) (r : Int) (s' : BState) (ho : Option Nat),
        rivulet s path = (r, s', ho) → r ≠ 0 → ho = none) ∧
    (∀ (s : BState) (sz : Nat), channel_get s none sz = some (List.replicate sz 0)) ∧
    (∀ (s : BState) (bs : List Nat), channel_set s none bs = some s) ∧
    (∀ (s : BState) (d : Bool), rivulet_read s none d = RwRes.noop) ∧
    (∀ (s : BState) (src : Option (List Nat)), rivulet_write s none src = some s) ∧
    (∀ s : BState, rivulet_size s none = some 0) ∧
    (∀ s : BState, linked s none = false) := by
  refine ⟨?_, ?_, ?_, ?_, ?_, ?_, ?_, ?_⟩
  · intro s path v r s' ho heq hr
    simp only [channel] at heq
    split at heq
    · simp only [Prod.mk.injEq] at heq
      exact heq.2.2.symm
    · split at heq
      · simp only [Prod.mk.injEq] at heq
        exact heq.2.2.symm
      · simp only [Prod.mk.injEq] at heq
        exact absurd heq.1.symm hr
  · intro s path r s' ho heq hr
    simp only [rivulet] at heq
    split at heq
    · simp only [Prod.mk.injEq] at heq
      exact heq.2.2.symm
    · split at heq
      · simp only [Prod.mk.injEq] at heq
        exact heq.2.2.symm
      · simp only [Prod.mk.injEq] at heq
        exact absurd heq.1.symm hr
  · intro s sz; rfl
  · intro s bs; rfl
  · intro s d; cases d <;> simp [rivulet_read]
  · intro s src; cases src <;> simp [rivulet_write]
  · intro s; rfl
  · intro s; rfl

/-- Witness for the failed-declaration claim: an invalid path and a
missing path, each leaving the handle unlinked on a fresh builder. -/
theorem failed_declaration_leaves_handle_unlinked_witness :
    ((ERR_INVALID, initBuilder, (none : Option Nat)).2.2 = none) ∧
    ((ERR_NOTFOUND, initBuilder, (none : Option Nat)).2.2 = none) ∧
    channel_get initBuilder none 4 = some (List.replicate 4 0) :=
  ⟨failed_declaration_leaves_handle_unlinked.1 initBuilder "bad path" [1]
      ERR_INVALID initBuilder none (by rfl) (by decide),
   failed_declaration_leaves_handle_unlinked.2.1 initBuilder "missing"
      ERR_NOTFOUND initBuilder none (by rfl) (by decide),
   failed_declaration_leaves_handle_unlinked.2.2.1 initBuilder 4⟩

/-- C1: evaluation of the rivulet-offset defect.  In the scenario the
subtree rooted at `r` contains exactly one channel (`r.x.c`, one byte,
laid out at offset 1, the storage being `[9, 7]`), so per the claim the
Link of `r` should record `rivulet_offset = 1`.  The code instead copies
`children[0]->link->channel_offset` from the first child `x`, which is not
a channel, so the stored offset is a never-assigned (indeterminate) value,
modelled as `none`; had `x` carried no Link at all, the build would have
dereferenced a null pointer. -/
theorem rivulet_offset_wrong_when_first_child_not_channel :
    build exRiv4 = some (0, exRiv5, some 0) ∧
    (rivulet exRiv3 "r").2.2 = some 3 ∧
    (channel exRiv1 "r.x.c" [7]).2.2 = some 1 ∧
    exRiv5.rivers = [[9, 7]] ∧
    (getLink exRiv5.links 1).channel_offset = some 1 ∧
    (getLink exRiv5.links 3).rivulet_size = some 1 ∧
    (getLink exRiv5.links 3).rivulet_offset = none :=
  ⟨rfl, rfl, rfl, rfl, rfl, rfl, rfl⟩

/-- C2: evaluation of the rebuild defect.  One four-byte channel `foo` is
declared; the first build produces a four-byte storage holding the initial
value, but the second build from the same schema — whose tree still
declares four bytes of channels, `sum_size = 4` — succeeds with return
code 0 while allocating an empty storage, because the first build detached
every Link and `build_node` only emits channels for nodes holding a
Link. -/
theorem second_build_produces_empty_storage :
    channel initBuilder "foo" [1, 2, 3, 4] = (0, exReb1, some 0) ∧
    build exReb1 = some (0, exReb2, some 0) ∧
    exReb2.rivers = [[1, 2, 3, 4]] ∧
    sum_size exReb2.root = 4 ∧
    (build exReb2).map (fun r => (r.1, r.2.1.rivers, r.2.2)) =
      some (0, [[1, 2, 3, 4], []], some 1) :=
  ⟨rfl, rfl, rfl, rfl, rfl⟩

/-- C5: evaluation of the rivulet read/write defect on the same scenario
as the rivulet-offset claim.  The rivulet at `r` spans one channel of one
byte whose current value is `[7]` (readable through the channel handle),
and `size()` correctly returns 1, but `read()` copies from the
indeterminate `rivulet_offset` instead of returning the concatenation
`[7]`. -/
theorem rivulet_read_undefined_when_first_child_not_channel :
    rivulet_size exRiv5 (some 3) = some 1 ∧
    channel_get exRiv5 (some 1) 1 = some [7] ∧
    rivulet_read exRiv5 (some 3) false = RwRes.ub :=
  ⟨rfl, rfl, rfl⟩

/-- A found child bears the searched name. -/
theorem forestFind_name : ∀ (f : Forest) (t : List Char) (c : Node),
    forestFind f t = some c → c.name = t
  | .nil, t, c => by simp [forestFind]
  | .cons c0 rest, t, c => by
    by_cases h0 : c0.name = t
    · intro h
      simp [forestFind, h0] at h
      exact h ▸ h0
    · intro h
      simp only [forestFind, h0, if_false] at h
      exact forestFind_name rest t c h

/-- Replacing a found child by itself changes nothing. -/
theorem forestReplace_self : ∀ (f : Forest) (t : List Char) (c : Node),
    forestFind f t = some c → forestReplace f t c = f
  | .nil, t, c => by simp [forestFind]
  | .cons c0 rest, t, c => by
    by_cases h0 : c0.name = t
    · intro h
      simp [forestFind, h0] at h
      subst h
      simp [forestReplace, h0]
    · intro h
      simp only [forestFind, h0, if_false] at h
      simp [forestReplace, h0, forestReplace_self rest t c h]

/-- Finding after replacing the found child yields the replacement, as long
as the replacement keeps the searched name. -/
theorem forestFind_replace : ∀ (f : Forest) (t : List Char) (c c' : Node),
    forestFind f t = some c → c'.name = t →
    forestFind (forestReplace f t c') t = some c'
  | .nil, t, c, c' => by simp [forestFind]
  | .cons c0 rest, t, c, c' => by
    by_cases h0 : c0.name = t
    · intro h hn
      simp [forestReplace, h0, forestFind, hn]
    · intro h hn
      simp only [forestFind, h0, if_false] at h
      simp [forestReplace, h0, forestFind,
        forestFind_replace rest t c c' h hn]

/-- Finding in an appended forest that had no match yields the appended
child exactly when it bears the searched name. -/
theorem forestFind_append : ∀ (f : Forest) (t : List Char) (c' : Node),
    forestFind f t = none →
    forestFind (forestAppend f c') t = if c'.name = t then some c' else none
  | .nil, t, c' => by simp [forestAppend, forestFind]
  | .cons c0 rest, t, c' => by
    by_cases h0 : c0.name = t
    · intro h
      simp [forestFind, h0] at h
    · intro h
      simp only [forestFind, h0, if_false] at h
      simp [forestAppend, forestFind, h0, forestFind_append rest t c' h]

/-- Insertion preserves the root node's name. -/
theorem insert_name (n : Node) (ts : List (List Char)) :
    (insert_node n ts).1.name = n.name := by
  cases n with
  | mk nm ci lk f =>
    cases ts with
    | nil => rfl
    | cons t ts =>
      simp only [insert_node]
      cases forestFind f t <;> simp [Node.name]

/-- The terminal node of an insertion bears the last path token. -/
theorem insert_terminal_name : ∀ (n : Node) (ts : List (List Char)),
    ts ≠ [] → (insert_node n ts).2.name = ts.getLastD []
  | _, [], h => absurd rfl h
  | .mk nm ci lk f, t :: ts, _ => by
    by_cases hts : ts = []
    · subst hts
      simp only [insert_node]
      cases hf : forestFind f t with
      | some c =>
        simp [insert_node, hf, forestFind_name f t c hf]
      | none =>
        simp [insert_node, hf, Node.name]
    · have hlast : (t :: ts).getLastD [] = ts.getLastD [] := by
        cases ts with
        | nil => exact absurd rfl hts
        | cons a l => simp [List.getLastD_cons]
      rw [hlast]
      simp only [insert_node]
      cases hf : forestFind f t with
      | some c =>
        simp only [hf]
        exact insert_terminal_name c ts hts
      | none =>
        simp only [hf]
        exact insert_terminal_name _ ts hts

/-- Inserting along a path that already exists returns the tree unchanged
together with the found node. -/
theorem insert_found (n : Node) (ts : List (List Char)) (m : Node)
    (h : find_node n ts = some m) : insert_node n ts = (n, m) := by
  induction ts generalizing n with
  | nil =>
    simp [find_node] at h
    simp [insert_node, h]
  | cons t ts ih =>
    cases n with
    | mk nm ci lk f =>
      simp only [find_node, Node.children] at h
      cases hf : forestFind f t with
      | none => rw [hf] at h; simp at h
      | some c =>
        rw [hf] at h
        simp only at h
        simp only [insert_node, hf, ih c h]
        simp [forestReplace_self f t c hf]

/-- Finding along the path just inserted yields the terminal node that the
insertion returned. -/
theorem find_insert (n : Node) (ts : List (List Char)) :
    find_node (insert_node n ts).1 ts = some (insert_node n ts).2 := by
  induction ts generalizing n with
  | nil => simp [insert_node, find_node]
  | cons t ts ih =>
    cases n with
    | mk nm ci lk f =>
      simp only [insert_node]
      cases hf : forestFind f t with
      | some c =>
        have hname : (insert_node c ts).1.name = t :=
          (insert_name c ts).trans (forestFind_name f t c hf)
        simp only [find_node, Node.children]
        rw [forestFind_replace f t c _ hf hname]
        exact ih c
      | none =>
        have hname : (insert_node (.mk t none none .nil) ts).1.name = t :=
          insert_name _ ts
        simp only [find_node, Node.children]
        rw [forestFind_append f t _ hf, if_pos hname]
        exact ih _

/-- Finding after an update at a found path yields the updated node, as
long as the update keeps the found node's name. -/
theorem find_update : ∀ (n : Node) (ts : List (List Char)) (g : Node → Node)
    (m : Node), find_node n ts = some m → (g m).name = m.name →
    find_node (update_node n ts g) ts = some (g m)
  | n, [], g, m => by
    intro h hm
    simp [find_node] at h
    subst h
    simp [update_node, find_node]
  | .mk nm ci lk f, t :: ts, g, m => by
    intro h hm
    simp only [find_node, Node.children] at h
    cases hf : forestFind f t with
    | none => simp only [hf] at h; exact absurd h (by simp)
    | some c =>
      simp only [hf] at h
      have hun : (update_node c ts g).name = t := by
        cases hts : ts with
        | nil =>
          have hmc : m = c := by
            rw [hts] at h
            simp [find_node] at h
            exact h.symm
          simp only [hts, update_node]
          rw [hmc] at hm
          exact hm.trans (forestFind_name f t c hf)
        | cons t2 ts2 =>
          simp only [hts, update_node]
          cases hf2 : forestFind c.children t2 with
          | none => exact forestFind_name f t c hf
          | some u => exact forestFind_name f t c hf
      simp only [update_node, Node.children, hf]
      simp only [find_node, Node.children]
      rw [forestFind_replace f t c _ hf hun]
      exact find_update c ts g m h hm

/-- A successfully tokenized path yields at least one token. -/
theorem tokenize_nonempty (p : String) (toks : List (List Char))
    (h : tokenize_path p = some toks) : toks ≠ [] := by
  simp only [tokenize_path] at h
  split at h
  · exact absurd h (by simp)
  · split at h
    · rename_i hne hall
      cases h
      simpa [List.isEmpty_iff] using hne
    · exact absurd h (by simp)

/-- A successful channel declaration makes any further channel declaration
at the same path fail with `ERR_DUPE` and leave the whole builder state
(tree, link arena, rivers) unchanged and the output handle untouched. -/
theorem channel_dupe_frame (s : BState) (p : String) (v v' : List Nat)
    (s1 : BState) (lid : Nat)
    (h : channel s p v = (0, s1, some lid)) :
    channel s1 p v' = (ERR_DUPE, s1, none) := by
  simp only [channel] at h
  split at h
  · simp only [Prod.mk.injEq] at h
    exact absurd h.1 (by decide)
  · rename_i toks htok
    split at h
    · simp only [Prod.mk.injEq] at h
      exact absurd h.1 (by decide)
    · rename_i hdup
      simp only [Prod.mk.injEq] at h
      obtain ⟨h0, hst, hlid⟩ := h
      have hne := tokenize_nonempty p toks htok
      have hfind0 := find_insert s.root toks
      have hmname := insert_terminal_name s.root toks hne
      have hfind1 := find_update (insert_node s.root toks).1 toks
        (fun m => Node.mk (toks.getLastD [])
          (some ⟨v⟩) (some (ensureLink (insert_node s.root toks).2.link s.links).1)
          m.children)
        (insert_node s.root toks).2 hfind0 (by exact hmname.symm)
      have hins := insert_found _ toks _ hfind1
      have hroot : s1.root = update_node (insert_node s.root toks).1 toks
          (fun m => Node.mk (toks.getLastD [])
            (some ⟨v⟩) (some (ensureLink (insert_node s.root toks).2.link s.links).1)
            m.children) := by
        rw [← hst]
      rw [← hroot] at hfind1 hins
      simp only [channel, htok, hins]
      simp only [Node.channel_info, Option.isSome_some, if_true]

/-- C7: a second channel declaration at an already declared path, with any
value, returns `ERR_DUPE` and leaves the first channel completely
unaffected — in fact it leaves the whole builder state unchanged, so the
first channel's size, initial value, and handle behave exactly as if the
duplicate call had never happened; concretely, after a failed duplicate
with a different value, building yields the original initial value and the
original handle still gets and sets correctly. -/
theorem duplicate_channel_rejected_and_first_intact :
    (∀ (s : BState) (p : String) (v v' : List Nat) (s1 : BState) (lid : Nat),
        channel s p v = (0, s1, some lid) →
        channel s1 p v' = (ERR_DUPE, s1, none)) ∧
    (channel exDup1 "foo" [9, 9] = (ERR_DUPE, exDup1, none) ∧
     build exDup1 = some (0, exDup2, some 0) ∧
     channel_get exDup2 (some 0) 1 = some [5] ∧
     channel_set exDup2 (some 0) [8] = some exDup3 ∧
     channel_get exDup3 (some 0) 1 = some [8]) :=
  ⟨channel_dupe_frame, rfl, rfl, rfl, rfl, rfl⟩

/-- Witness for the duplicate-channel claim: the concrete duplicate
declaration of `foo` with a different value and size is rejected with
`ERR_DUPE` and the state is returned unchanged. -/
theorem duplicate_channel_rejected_witness :
    channel exDup1 "foo" [7] = (ERR_DUPE, exDup1, none) :=
  duplicate_channel_rejected_and_first_intact.1 initBuilder "foo" [5] [7]
    exDup1 0 (by rfl)

mutual
/-- The remove-link pass leaves every node of the subtree link-free. -/
theorem remove_link_clears : ∀ n : Node, allNodesB noLinkB (remove_link n) = true
  | .mk nm ci lk f => by
    simp only [remove_link, allNodesB, Bool.and_eq_true]
    exact ⟨rfl, remove_link_forest_clears f⟩
/-- The remove-link pass leaves every node of the forest link-free. -/
theorem remove_link_forest_clears :
    ∀ f : Forest, allForestB noLinkB (remove_link_forest f) = true
  | .nil => rfl
  | .cons c rest => by
    simp only [remove_link_forest, allForestB, Bool.and_eq_true]
    exact ⟨remove_link_clears c, remove_link_forest_clears rest⟩
end

mutual
/-- Building a subtree in which no node holds a Link does nothing: the
arena and the storage are returned unchanged. -/
theorem build_node_nolinks : ∀ (rid : Nat) (n : Node) (ls : List Link) (st : List Nat),
    allNodesB noLinkB n = true → build_node rid n ls st = some (ls, st)
  | rid, .mk nm ci lk f, ls, st => by
    intro h
    simp only [allNodesB, Bool.and_eq_true] at h
    obtain ⟨h1, h2⟩ := h
    cases lk with
    | some l => simp [noLinkB, Node.link] at h1
    | none =>
      simp only [build_node]
      rw [build_forest_nolinks rid f ls st h2]
/-- Building a forest in which no node holds a Link does nothing. -/
theorem build_forest_nolinks : ∀ (rid : Nat) (f : Forest) (ls : List Link) (st : List Nat),
    allForestB noLinkB f = true → build_forest rid f ls st = some (ls, st)
  | rid, .nil, ls, st => fun _ => rfl
  | rid, .cons c rest, ls, st => by
    intro h
    simp only [allForestB, Bool.and_eq_true] at h
    simp only [build_forest, build_node_nolinks rid c ls st h.1]
    exact build_forest_nolinks rid rest ls st h.2
end

/-- Appending one empty storage to the river arena changes no read at any
index: in-range indices are untouched and out-of-range reads already
defaulted to the empty buffer. -/
theorem getD_append_empty (l : List (List Nat)) (i : Nat) :
    (l ++ [[]]).getD i [] = l.getD i [] := by
  by_cases h : i < l.length
  · exact List.getD_append l [[]] [] i h
  · have hle : l.length ≤ i := Nat.le_of_not_lt h
    rw [List.getD_eq_default l [] hle, List.getD_append_right l [[]] [] i hle]
    cases hk : i - l.length with
    | zero => rfl
    | succ k => rfl

/-- Channel reads see identical bytes in two states whose link arenas are
equal and whose river arenas differ by one appended empty storage. -/
theorem channel_get_append_empty (sA sB : BState)
    (hl : sB.links = sA.links) (hr : sB.rivers = sA.rivers ++ [[]]) :
    ∀ (lid sz : Nat), channel_get sB (some lid) sz = channel_get sA (some lid) sz := by
  intro lid sz
  simp only [channel_get, hl]
  cases (getLink sA.links lid).river with
  | none => rfl
  | some rid =>
    cases (getLink sA.links lid).channel_offset with
    | none => rfl
    | some off =>
      simp only [hr, getD_append_empty]

/-- C6: a second `build()` on the same root builder yields a new, distinct
storage (the next river index), leaves every Link populated by the first
build untouched, keeps every previously built storage intact, and the
reads and writes of any handle bound to the first build behave exactly as
before the second build. -/
theorem rebuild_independence (s s1 : BState) (r1 : Nat)
    (h : build s = some (0, s1, some r1)) :
    ∃ s2, build s1 = some (0, s2, some (r1 + 1)) ∧ (r1 + 1 ≠ r1) ∧
      s2.links = s1.links ∧
      (∀ i, i < s1.rivers.length → s2.rivers.getD i [] = s1.rivers.getD i []) ∧
      (∀ lid sz : Nat, channel_get s2 (some lid) sz = channel_get s1 (some lid) sz) ∧
      (∀ (lid : Nat) (bs : List Nat) (s1' : BState),
        (getLink s1.links lid).river = some r1 →
        channel_set s1 (some lid) bs = some s1' →
        ∃ s2', channel_set s2 (some lid) bs = some s2' ∧
          ∀ (lid' sz : Nat),
            channel_get s2' (some lid') sz = channel_get s1' (some lid') sz) := by
  simp only [build] at h
  split at h
  · rename_i hroot
    split at h
    · exact absurd h (by simp)
    · rename_i ls' st hbn
      simp only [Option.some.injEq, Prod.mk.injEq] at h
      obtain ⟨-, hs1, hr1⟩ := h
      have hs1root : s1.root = remove_link s.root := by rw [← hs1]
      have hs1links : s1.links = ls' := by rw [← hs1]
      have hs1rivers : s1.rivers = s.rivers ++ [st] := by rw [← hs1]
      have hs1isroot : s1.is_root = s.is_root := by rw [← hs1]
      have hlen : s1.rivers.length = r1 + 1 := by
        rw [hs1rivers, ← hr1]
        simp
      have hbn2 : build_node s1.rivers.length s1.root s1.links [] =
          some (s1.links, []) := by
        rw [hs1root]
        exact build_node_nolinks _ _ _ _ (remove_link_clears s.root)
      have hb2 : build s1 =
          some (0, ⟨remove_link s1.root, s1.links, s1.rivers ++ [[]], s1.is_root⟩,
            some s1.rivers.length) := by
        simp only [build, hs1isroot, hroot, if_true, hbn2]
      refine ⟨⟨remove_link s1.root, s1.links, s1.rivers ++ [[]], s1.is_root⟩,
        by rw [hb2, hlen], by omega, rfl, ?_, ?_, ?_⟩
      · intro i hi
        exact getD_append_empty s1.rivers i
      · exact channel_get_append_empty s1
          ⟨remove_link s1.root, s1.links, s1.rivers ++ [[]], s1.is_root⟩ rfl rfl
      · intro lid bs s1' hriver hset
        have hrlt : r1 < s1.rivers.length := by omega
        simp only [channel_set, hriver] at hset ⊢
        cases hoff : (getLink s1.links lid).channel_offset with
        | none => rw [hoff] at hset; exact absurd hset (by simp)
        | some off =>
          rw [hoff] at hset
          simp only [Option.some.injEq] at hset
          refine ⟨_, rfl, ?_⟩
          intro lid' sz
          have hs1'links : s1'.links = s1.links := by rw [← hset]
          have hs1'rivers : s1'.rivers =
              s1.rivers.set r1 (writeBytes (s1.rivers.getD r1 []) off bs) := by
            rw [← hset]
          apply channel_get_append_empty
          · simp [hs1'links]
          · simp only [hs1'rivers]
            rw [getD_append_empty s1.rivers r1,
              List.set_append_left _ _ hrlt]
  · exact absurd h (by simp)

/-- Witness for the rebuild-independence claim: the one-channel schema,
built once, then rebuilt. -/
theorem rebuild_independence_witness :
    ∃ s2, build exReb2 = some (0, s2, some (0 + 1)) ∧ (0 + 1 ≠ 0) ∧
      s2.links = exReb2.links ∧
      (∀ i, i < exReb2.rivers.length → s2.rivers.getD i [] = exReb2.rivers.getD i []) ∧
      (∀ lid sz : Nat, channel_get s2 (some lid) sz = channel_get exReb2 (some lid) sz) ∧
      (∀ (lid : Nat) (bs : List Nat) (s1' : BState),
        (getLink exReb2.links lid).river = some 0 →
        channel_set exReb2 (some lid) bs = some s1' →
        ∃ s2', channel_set s2 (some lid) bs = some s2' ∧
          ∀ (lid' sz : Nat),
            channel_get s2' (some lid') sz = channel_get s1' (some lid') sz) :=
  rebuild_independence exReb1 exReb2 0 (by rfl)

/-- A subtree-wide property holds at the subtree root. -/
theorem allNodesB_self (p : Node → Bool) : ∀ n : Node,
    allNodesB p n = true → p n = true
  | .mk nm ci lk f => by
    simp only [allNodesB, Bool.and_eq_true]
    exact fun h => h.1

mutual
/-- Monotonicity of the subtree-wide quantifier. -/
theorem allNodesB_mono (p q : Node → Bool) (hpq : ∀ m, p m = true → q m = true) :
    ∀ n : Node, allNodesB p n = true → allNodesB q n = true
  | .mk nm ci lk f => by
    simp only [allNodesB, Bool.and_eq_true]
    exact fun h => ⟨hpq _ h.1, allForestB_mono p q hpq f h.2⟩
/-- Monotonicity of the forest-wide quantifier. -/
theorem allForestB_mono (p q : Node → Bool) (hpq : ∀ m, p m = true → q m = true) :
    ∀ f : Forest, allForestB p f = true → allForestB q f = true
  | .nil => fun _ => rfl
  | .cons c rest => by
    simp only [allForestB, Bool.and_eq_true]
    exact fun h => ⟨allNodesB_mono p q hpq c h.1, allForestB_mono p q hpq rest h.2⟩
end

/-- A nonvacuous subtree-wide property yields an existential one. -/
theorem allNodesB_any (p : Node → Bool) : ∀ n : Node,
    allNodesB p n = true → anyNodeB p n = true
  | .mk nm ci lk f => by
    simp only [allNodesB, anyNodeB, Bool.and_eq_true, Bool.or_eq_true]
    exact fun h => Or.inl h.1

/-- A found child of a forest satisfying a forest-wide property satisfies
the subtree-wide property. -/
theorem forestFind_all (p : Node → Bool) : ∀ (f : Forest) (t : List Char) (c : Node),
    forestFind f t = some c → allForestB p f = true → allNodesB p c = true
  | .nil, t, c => by simp [forestFind]
  | .cons c0 rest, t, c => by
    by_cases h0 : c0.name = t
    · intro h hall
      simp [forestFind, h0] at h
      simp only [allForestB, Bool.and_eq_true] at hall
      exact h ▸ hall.1
    · intro h hall
      simp only [forestFind, h0, if_false] at h
      simp only [allForestB, Bool.and_eq_true] at hall
      exact forestFind_all p rest t c h hall.2

/-- An existential witness in a found child lifts to the forest. -/
theorem forestFind_any (p : Node → Bool) : ∀ (f : Forest) (t : List Char) (c : Node),
    forestFind f t = some c → anyNodeB p c = true → anyForestB p f = true
  | .nil, t, c => by simp [forestFind]
  | .cons c0 rest, t, c => by
    by_cases h0 : c0.name = t
    · intro h hany
      simp [forestFind, h0] at h
      simp only [anyForestB, Bool.or_eq_true]
      exact Or.inl (h ▸ hany)
    · intro h hany
      simp only [forestFind, h0, if_false] at h
      simp only [anyForestB, Bool.or_eq_true]
      exact Or.inr (forestFind_any p rest t c h hany)

/-- A subtree-wide property restricts to any node found below. -/
theorem find_node_all (p : Node → Bool) : ∀ (n : Node) (ts : List (List Char)) (m : Node),
    find_node n ts = some m → allNodesB p n = true → allNodesB p m = true
  | n, [], m => by
    intro h hall
    simp [find_node] at h
    exact h ▸ hall
  | .mk nm ci lk f, t :: ts, m => by
    intro h hall
    simp only [find_node, Node.children] at h
    cases hf : forestFind f t with
    | none => simp only [hf] at h; exact absurd h (by simp)
    | some c =>
      simp only [hf] at h
      simp only [allNodesB, Bool.and_eq_true] at hall
      exact find_node_all p c ts m h (forestFind_all p f t c hf hall.2)

/-- An existential witness below a found node lifts to the whole tree. -/
theorem find_node_any (p : Node → Bool) : ∀ (n : Node) (ts : List (List Char)) (m : Node),
    find_node n ts = some m → anyNodeB p m = true → anyNodeB p n = true
  | n, [], m => by
    intro h hany
    simp [find_node] at h
    exact h ▸ hany
  | .mk nm ci lk f, t :: ts, m => by
    intro h hany
    simp only [find_node, Node.children] at h
    cases hf : forestFind f t with
    | none => simp only [hf] at h; exact absurd h (by simp)
    | some c =>
      simp only [hf] at h
      simp only [anyNodeB, Bool.or_eq_true]
      exact Or.inr (forestFind_any p f t c hf (find_node_any p c ts m h hany))

/-- Navigation along a concatenated path factors through the intermediate
node. -/
theorem find_node_append : ∀ (n : Node) (xs ys : List (List Char)),
    find_node n (xs ++ ys) =
      match find_node n xs with
      | some m => find_node m ys
      | none => none
  | n, [], ys => by simp [find_node]
  | .mk nm ci lk f, x :: xs, ys => by
    simp only [List.cons_append, find_node, Node.children]
    cases hf : forestFind f x with
    | none => rfl
    | some c => exact find_node_append c xs ys

/-- Storing a lock at an arena slot either leaves another slot's lock
unchanged or makes it the stored lock. -/
theorem setLink_lock_cases (ls : List Link) (i j lk : Nat) :
    (getLink (setLink ls i (fun l => { l with lock := some lk })) j).lock =
        (getLink ls j).lock ∨
    (getLink (setLink ls i (fun l => { l with lock := some lk })) j).lock =
        some lk := by
  by_cases hij : i = j
  · subst hij
    by_cases hlt : i < ls.length
    · rw [getLink_setLink_self ls i _ hlt]
      exact Or.inr rfl
    · rw [setLink, List.set_eq_of_length_le (Nat.le_of_not_lt hlt)]
      exact Or.inl rfl
  · rw [getLink_setLink_ne ls i j _ hij]
    exact Or.inl rfl

/-- Storing a lock preserves slots that already hold it. -/
theorem setLink_lock_pres (ls : List Link) (i j lk : Nat)
    (h : (getLink ls j).lock = some lk) :
    (getLink (setLink ls i (fun l => { l with lock := some lk })) j).lock =
      some lk := by
  rcases setLink_lock_cases ls i j lk with hc | hc
  · exact hc.trans h
  · exact hc

mutual
/-- When every node of the subtree holds a Link, the lock-conflict scan
succeeds and decides exactly whether some Link of the subtree holds a
lock. -/
theorem check_spec (ls : List Link) : ∀ n : Node,
    allNodesB hasLinkB n = true →
    check_for_locks ls n = some (anyNodeB (lockSetB ls) n)
  | .mk nm ci lk f => by
    intro h
    simp only [allNodesB, Bool.and_eq_true] at h
    cases lk with
    | none => simp [hasLinkB, Node.link] at h
    | some lid =>
      simp only [check_for_locks, anyNodeB, lockSetB, Node.link]
      cases hls : (getLink ls lid).lock.isSome with
      | true => simp [hls]
      | false => simp [hls, check_forest_spec ls f h.2]
/-- Forest version of the lock-conflict scan characterisation. -/
theorem check_forest_spec (ls : List Link) : ∀ f : Forest,
    allForestB hasLinkB f = true →
    check_forest ls f = some (anyForestB (lockSetB ls) f)
  | .nil => fun _ => rfl
  | .cons c rest => by
    intro h
    simp only [allForestB, Bool.and_eq_true] at h
    simp only [check_forest, check_spec ls c h.1, anyForestB]
    cases hc : anyNodeB (lockSetB ls) c with
    | true => simp
    | false => simp [check_forest_spec ls rest h.2]
end

mutual
/-- When every node of the subtree holds a Link, the lock-assignment pass
succeeds. -/
theorem assign_some (lk : Nat) : ∀ (n : Node) (ls : List Link),
    allNodesB hasLinkB n = true → ∃ ls', assign_lock lk n ls = some ls'
  | .mk nm ci nlk f, ls => by
    intro h
    simp only [allNodesB, Bool.and_eq_true] at h
    cases nlk with
    | none => simp [hasLinkB, Node.link] at h
    | some lid =>
      simp only [assign_lock]
      exact assign_forest_some lk f _ h.2
/-- Forest version of assignment success. -/
theorem assign_forest_some (lk : Nat) : ∀ (f : Forest) (ls : List Link),
    allForestB hasLinkB f = true → ∃ ls', assign_forest lk f ls = some ls'
  | .nil, ls => fun _ => ⟨ls, rfl⟩
  | .cons c rest, ls => by
    intro h
    simp only [allForestB, Bool.and_eq_true] at h
    obtain ⟨ls1, hls1⟩ := assign_some lk c ls h.1
    obtain ⟨ls', hls'⟩ := assign_forest_some lk rest ls1 h.2
    exact ⟨ls', by simp [assign_forest, hls1, hls']⟩
end

mutual
/-- The assignment pass preserves the arena length. -/
theorem assign_length (lk : Nat) : ∀ (n : Node) (ls ls' : List Link),
    assign_lock lk n ls = some ls' → ls'.length = ls.length
  | .mk nm ci nlk f, ls, ls' => by
    intro h
    cases nlk with
    | none => simp [assign_lock] at h
    | some lid =>
      simp only [assign_lock] at h
      rw [assign_forest_length lk f _ ls' h]
      exact length_setLink ls lid _
/-- Forest version of length preservation. -/
theorem assign_forest_length (lk : Nat) : ∀ (f : Forest) (ls ls' : List Link),
    assign_forest lk f ls = some ls' → ls'.length = ls.length
  | .nil, ls, ls' => by
    intro h
    simp only [assign_forest, Option.some.injEq] at h
    rw [← h]
  | .cons c rest, ls, ls' => by
    intro h
    simp only [assign_forest] at h
    cases hc : assign_lock lk c ls with
    | none => rw [hc] at h; exact absurd h (by simp)
    | some ls1 =>
      rw [hc] at h
      exact (assign_forest_length lk rest ls1 ls' h).trans
        (assign_length lk c ls ls1 hc)
end

/-- A failed Boolean membership test is exactly non-membership. -/
theorem contains_false_iff (l : List Nat) (i : Nat) :
    l.contains i = false ↔ ¬ i ∈ l := by
  simp [List.contains, List.elem_eq_mem]

mutual
/-- Arena slots outside the subtree's link ids are untouched by the
assignment pass. -/
theorem assign_frame (lk : Nat) : ∀ (n : Node) (ls ls' : List Link),
    assign_lock lk n ls = some ls' →
    ∀ i : Nat, (node_lids n).contains i = false → getLink ls' i = getLink ls i
  | .mk nm ci nlk f, ls, ls' => by
    intro h i hout
    rw [contains_false_iff] at hout
    cases nlk with
    | none => simp [assign_lock] at h
    | some lid =>
      simp only [assign_lock] at h
      simp only [node_lids, List.singleton_append, List.mem_cons] at hout
      push_neg at hout
      rw [assign_forest_frame lk f _ ls' h i ((contains_false_iff _ _).mpr hout.2)]
      exact getLink_setLink_ne ls lid i _ (fun hc => hout.1 hc.symm)
/-- Forest version of the frame property. -/
theorem assign_forest_frame (lk : Nat) : ∀ (f : Forest) (ls ls' : List Link),
    assign_forest lk f ls = some ls' →
    ∀ i : Nat, (forest_lids f).contains i = false → getLink ls' i = getLink ls i
  | .nil, ls, ls' => by
    intro h i _
    simp only [assign_forest, Option.some.injEq] at h
    rw [← h]
  | .cons c rest, ls, ls' => by
    intro h i hout
    rw [contains_false_iff] at hout
    simp only [forest_lids, List.mem_append] at hout
    push_neg at hout
    simp only [assign_forest] at h
    cases hc : assign_lock lk c ls with
    | none => rw [hc] at h; exact absurd h (by simp)
    | some ls1 =>
      rw [hc] at h
      rw [assign_forest_frame lk rest ls1 ls' h i ((contains_false_iff _ _).mpr hout.2)]
      exact assign_frame lk c ls ls1 hc i ((contains_false_iff _ _).mpr hout.1)
end

mutual
/-- Arena slots already holding the assigned lock keep it through the
assignment pass. -/
theorem assign_mono (lk : Nat) : ∀ (n : Node) (ls ls' : List Link) (i : Nat),
    (getLink ls i).lock = some lk → assign_lock lk n ls = some ls' →
    (getLink ls' i).lock = some lk
  | .mk nm ci nlk f, ls, ls', i => by
    intro hi h
    cases nlk with
    | none => simp [assign_lock] at h
    | some lid =>
      simp only [assign_lock] at h
      exact assign_forest_mono lk f _ ls' i (setLink_lock_pres ls lid i lk hi) h
/-- Forest version of lock preservation. -/
theorem assign_forest_mono (lk : Nat) : ∀ (f : Forest) (ls ls' : List Link) (i : Nat),
    (getLink ls i).lock = some lk → assign_forest lk f ls = some ls' →
    (getLink ls' i).lock = some lk
  | .nil, ls, ls', i => by
    intro hi h
    simp only [assign_forest, Option.some.injEq] at h
    rw [← h]
    exact hi
  | .cons c rest, ls, ls', i => by
    intro hi h
    simp only [assign_forest] at h
    cases hc : assign_lock lk c ls with
    | none => rw [hc] at h; exact absurd h (by simp)
    | some ls1 =>
      rw [hc] at h
      exact assign_forest_mono lk rest ls1 ls' i (assign_mono lk c ls ls1 i hi hc) h
end

mutual
/-- After a successful assignment pass on a subtree whose Links are all in
range, every node of the subtree holds exactly the assigned lock. -/
theorem assign_covers (lk : Nat) : ∀ (n : Node) (ls ls' : List Link),
    allNodesB (linkOKB ls.length) n = true → assign_lock lk n ls = some ls' →
    allNodesB (lockEqB ls' lk) n = true
  | .mk nm ci nlk f, ls, ls' => by
    intro hok h
    simp only [allNodesB, Bool.and_eq_true] at hok ⊢
    cases nlk with
    | none => simp [assign_lock] at h
    | some lid =>
      have hlt : lid < ls.length := by
        have h1 := hok.1
        simp only [linkOKB, Node.link, decide_eq_true_eq] at h1
        exact h1
      simp only [assign_lock] at h
      constructor
      · simp only [lockEqB, Node.link]
        have h1 : (getLink (setLink ls lid (fun l => { l with lock := some lk }))
            lid).lock = some lk := by
          rw [getLink_setLink_self ls lid _ hlt]
        have h2 := assign_forest_mono lk f _ ls' lid h1 h
        simp [h2]
      · apply assign_forest_covers lk f _ ls' ?_ h
        rw [length_setLink]
        exact hok.2
/-- Forest version of assignment coverage. -/
theorem assign_forest_covers (lk : Nat) : ∀ (f : Forest) (ls ls' : List Link),
    allForestB (linkOKB ls.length) f = true → assign_forest lk f ls = some ls' →
    allForestB (lockEqB ls' lk) f = true
  | .nil, ls, ls' => fun _ _ => rfl
  | .cons c rest, ls, ls' => by
    intro hok h
    simp only [allForestB, Bool.and_eq_true] at hok ⊢
    simp only [assign_forest] at h
    cases hc : assign_lock lk c ls with
    | none => rw [hc] at h; exact absurd h (by simp)
    | some ls1 =>
      rw [hc] at h
      constructor
      · apply allNodesB_mono (lockEqB ls1 lk) (lockEqB ls' lk) ?_ c
          (assign_covers lk c ls ls1 hok.1 hc)
        intro m hm
        simp only [lockEqB] at hm ⊢
        cases hml : m.link with
        | none => rw [hml] at hm; exact absurd hm (by simp)
        | some j =>
          rw [hml] at hm
          simp only [beq_iff_eq] at hm ⊢
          exact assign_forest_mono lk rest ls1 ls' j hm h
      · apply assign_forest_covers lk rest ls1 ls' ?_ h
        rw [assign_length lk c ls ls1 hc]
        exact hok.2
end

mutual
/-- The lock-conflict scan is insensitive to arena changes that preserve
every lock field mentioned in the subtree. -/
theorem any_lockSet_congr (ls ls' : List Link) : ∀ n : Node,
    allNodesB (sameLockB ls ls') n = true →
    anyNodeB (lockSetB ls') n = anyNodeB (lockSetB ls) n
  | .mk nm ci lk f => by
    intro h
    simp only [allNodesB, Bool.and_eq_true] at h
    have h1 : lockSetB ls' (.mk nm ci lk f) = lockSetB ls (.mk nm ci lk f) := by
      have hs := h.1
      simp only [sameLockB, Node.link] at hs
      simp only [lockSetB, Node.link]
      cases lk with
      | none => rfl
      | some j =>
        simp only [beq_iff_eq] at hs
        simp only [hs]
    simp only [anyNodeB, h1, any_forest_lockSet_congr ls ls' f h.2]
/-- Forest version of conflict-scan insensitivity. -/
theorem any_forest_lockSet_congr (ls ls' : List Link) : ∀ f : Forest,
    allForestB (sameLockB ls ls') f = true →
    anyForestB (lockSetB ls') f = anyForestB (lockSetB ls) f
  | .nil => fun _ => rfl
  | .cons c rest => by
    intro h
    simp only [allForestB, Bool.and_eq_true] at h
    simp only [anyForestB, any_lockSet_congr ls ls' c h.1,
      any_forest_lockSet_congr ls ls' rest h.2]
end

/-- An in-range Link is in particular present. -/
theorem linkOK_hasLink (len : Nat) (m : Node) (h : linkOKB len m = true) :
    hasLinkB m = true := by
  simp only [linkOKB] at h
  simp only [hasLinkB]
  cases hml : m.link with
  | none => rw [hml] at h; exact absurd h (by simp)
  | some j => rfl

/-- Holding exactly the assigned lock implies holding some lock. -/
theorem lockEq_lockSet (ls : List Link) (lk : Nat) (m : Node)
    (h : lockEqB ls lk m = true) : lockSetB ls m = true := by
  simp only [lockEqB] at h
  simp only [lockSetB]
  cases hml : m.link with
  | none => rw [hml] at h; exact absurd h (by simp)
  | some j =>
    rw [hml] at h
    have h' : ((getLink ls j).lock == some lk) = true := h
    simp only [beq_iff_eq] at h'
    show (getLink ls j).lock.isSome = true
    rw [h']
    rfl

/-- Core success lemma for `Builder::lock`: when the node exists, every
subtree node holds an in-range Link and none holds a lock, the call
returns 0 and stores the same lock into every Link of the subtree,
touching no other arena slot. -/
theorem lock_success_core (s : BState) (p : String) (lk : Nat)
    (toks : List (List Char)) (nd : Node)
    (htok : tokenize_path p = some toks)
    (hfind : find_node s.root toks = some nd)
    (hok : allNodesB (linkOKB s.links.length) nd = true)
    (hnolock : anyNodeB (lockSetB s.links) nd = false) :
    ∃ ls', lock s p lk = some (0, { s with links := ls' }) ∧
      allNodesB (lockEqB ls' lk) nd = true ∧
      ls'.length = s.links.length ∧
      (∀ i : Nat, (node_lids nd).contains i = false →
        getLink ls' i = getLink s.links i) := by
  have hlinks : allNodesB hasLinkB nd = true :=
    allNodesB_mono _ _ (linkOK_hasLink s.links.length) nd hok
  obtain ⟨ls', hassign⟩ := assign_some lk nd s.links hlinks
  refine ⟨ls', ?_, assign_covers lk nd s.links ls' hok hassign,
    assign_length lk nd s.links ls' hassign,
    assign_frame lk nd s.links ls' hassign⟩
  simp only [lock, htok, hfind, check_spec s.links nd hlinks, hnolock, hassign]

/-- Core conflict lemma for `Builder::lock`: when the node exists, every
subtree node holds a Link and some Link of the subtree already holds a
lock, the call returns `ERR_DUPE` and leaves the state unchanged. -/
theorem lock_dupe_core (s : BState) (p : String) (lk : Nat)
    (toks : List (List Char)) (nd : Node)
    (htok : tokenize_path p = some toks)
    (hfind : find_node s.root toks = some nd)
    (hlinks : allNodesB hasLinkB nd = true)
    (hlocked : anyNodeB (lockSetB s.links) nd = true) :
    lock s p lk = some (ERR_DUPE, s) := by
  simp only [lock, htok, hfind, check_spec s.links nd hlinks, hlocked]

/-- C3: when the node at the path exists, every node of its subtree
already holds a (non-null, in-range) Link and none of those Links holds a
lock, `lock` returns 0 and stores the same shared lock reference into the
Link of every node of the subtree. -/
theorem lock_propagates_shared_lock (s : BState) (p : String) (lk : Nat)
    (toks : List (List Char)) (nd : Node)
    (htok : tokenize_path p = some toks)
    (hfind : find_node s.root toks = some nd)
    (hok : allNodesB (linkOKB s.links.length) nd = true)
    (hnolock : anyNodeB (lockSetB s.links) nd = false) :
    ∃ ls', lock s p lk = some (0, { s with links := ls' }) ∧
      allNodesB (lockEqB ls' lk) nd = true := by
  obtain ⟨ls', h1, h2, -, -⟩ :=
    lock_success_core s p lk toks nd htok hfind hok hnolock
  exact ⟨ls', h1, h2⟩

/-- Witness for the lock-propagation claim: the `g` subtree (channel `g.a`
plus rivulet handle at `g`) with lock 7. -/
theorem lock_propagates_shared_lock_witness :
    ∃ ls', lock exLock1 "g" 7 = some (0, { exLock1 with links := ls' }) ∧
      allNodesB (lockEqB ls' 7) exGnode = true :=
  lock_propagates_shared_lock exLock1 "g" 7 [['g']] exGnode rfl rfl rfl rfl

/-- C8: after a lock is assigned at path `p`, assigning any (possibly
different) lock at an ancestor or descendant path fails with `ERR_DUPE`
and changes nothing, while assigning at a path whose subtree is disjoint
from `p`'s (its Links are distinct from the locked subtree's Links and
lock-free) succeeds. -/
theorem lock_overlap_dupe_disjoint_ok (s : BState) (p q1 q2 : String)
    (lk lk1 lk2 : Nat) (tp tq1 tq2 : List (List Char)) (np nq1 nq2 : Node)
    (htp : tokenize_path p = some tp)
    (hnp : find_node s.root tp = some np)
    (hokp : allNodesB (linkOKB s.links.length) np = true)
    (hnolockp : anyNodeB (lockSetB s.links) np = false)
    (htq1 : tokenize_path q1 = some tq1)
    (hnq1 : find_node s.root tq1 = some nq1)
    (hokq1 : allNodesB (linkOKB s.links.length) nq1 = true)
    (hrel : (∃ ys, tq1 ++ ys = tp) ∨ (∃ ys, tp ++ ys = tq1))
    (htq2 : tokenize_path q2 = some tq2)
    (hnq2 : find_node s.root tq2 = some nq2)
    (hokq2 : allNodesB (linkOKB s.links.length) nq2 = true)
    (hnolockq2 : anyNodeB (lockSetB s.links) nq2 = false)
    (hdisj : allNodesB (outsideB (node_lids np)) nq2 = true) :
    ∃ s1, lock s p lk = some (0, s1) ∧
      lock s1 q1 lk1 = some (ERR_DUPE, s1) ∧
      (∃ s2, lock s1 q2 lk2 = some (0, s2)) := by
  obtain ⟨ls', hlock, hcov, hlen, hframe⟩ :=
    lock_success_core s p lk tp np htp hnp hokp hnolockp
  refine ⟨{ s with links := ls' }, hlock, ?_, ?_⟩
  · have hlinks1 : allNodesB hasLinkB nq1 = true :=
      allNodesB_mono _ _ (linkOK_hasLink s.links.length) nq1 hokq1
    have hnp_any : anyNodeB (lockSetB ls') np = true :=
      allNodesB_any _ np
        (allNodesB_mono _ _ (lockEq_lockSet ls' lk) np hcov)
    have hany : anyNodeB (lockSetB ls') nq1 = true := by
      rcases hrel with ⟨ys, hys⟩ | ⟨ys, hys⟩
      · have happ := find_node_append s.root tq1 ys
        rw [hys, hnp, hnq1] at happ
        exact find_node_any _ nq1 ys np happ.symm hnp_any
      · have happ := find_node_append s.root tp ys
        rw [hys, hnq1, hnp] at happ
        have hall1 : allNodesB (lockEqB ls' lk) nq1 = true :=
          find_node_all _ np ys nq1 happ.symm hcov
        exact allNodesB_any _ nq1
          (allNodesB_mono _ _ (lockEq_lockSet ls' lk) nq1 hall1)
    exact lock_dupe_core { s with links := ls' } q1 lk1 tq1 nq1 htq1 hnq1
      hlinks1 hany
  · have hok2 : allNodesB (linkOKB ls'.length) nq2 = true := by
      rw [hlen]
      exact hokq2
    have hsame : allNodesB (sameLockB s.links ls') nq2 = true := by
      apply allNodesB_mono (outsideB (node_lids np)) _ ?_ nq2 hdisj
      intro m hm
      simp only [outsideB] at hm
      simp only [sameLockB]
      cases hml : m.link with
      | none => rfl
      | some j =>
        rw [hml] at hm
        have hm' : (!(node_lids np).contains j) = true := hm
        have hc : (node_lids np).contains j = false := by
          cases hcc : (node_lids np).contains j with
          | false => rfl
          | true => rw [hcc] at hm'; exact absurd hm' (by decide)
        simp [hframe j hc]
    have hnolock2 : anyNodeB (lockSetB ls') nq2 = false := by
      rw [any_lockSet_congr s.links ls' nq2 hsame]
      exact hnolockq2
    obtain ⟨ls2, hlock2, -, -, -⟩ :=
      lock_success_core { s with links := ls' } q2 lk2 tq2 nq2 htq2 hnq2
        hok2 hnolock2
    exact ⟨_, hlock2⟩

/-- Witness for the lock-conflict claim: lock the `a` subtree, then a
descendant path `a.b` is refused with `ERR_DUPE` without any change, and
the disjoint sibling subtree `c` accepts a lock. -/
theorem lock_overlap_dupe_disjoint_ok_witness :
    ∃ s1, lock exLock2 "a" 7 = some (0, s1) ∧
      lock s1 "a.b" 8 = some (ERR_DUPE, s1) ∧
      (∃ s2, lock s1 "c" 9 = some (0, s2)) :=
  lock_overlap_dupe_disjoint_ok exLock2 "a" "a.b" "c" 7 8 9
    [['a']] [['a'], ['b']] [['c']] exANode exABnode exCnode
    rfl rfl rfl rfl rfl rfl rfl (Or.inr ⟨[['b']], rfl⟩) rfl rfl rfl rfl rfl

/-- Splitter equation: end of stream with a pending nonempty token. -/
theorem splitDots_nil_acc (acc : List Char) (h : acc ≠ []) :
    splitDots [] acc = [acc] := by
  simp only [splitDots]
  rw [if_neg (by simpa [List.isEmpty_iff] using h)]

/-- Splitter equation: a dot emits the pending token. -/
theorem splitDots_dot (rest acc : List Char) :
    splitDots ('.' :: rest) acc = acc :: splitDots rest [] := by
  simp [splitDots]

/-- Splitter equation: an ordinary character extends the pending token. -/
theorem splitDots_char (c : Char) (hc : ¬ c = '.') (rest acc : List Char) :
    splitDots (c :: rest) acc = splitDots rest (acc ++ [c]) := by
  simp only [splitDots]
  rw [if_neg hc]

/-- The getline splitter never returns an empty token list when the
accumulator is nonempty. -/
theorem splitDots_ne_nil : ∀ (s acc : List Char), acc ≠ [] → splitDots s acc ≠ []
  | [], acc, h => by
    rw [splitDots_nil_acc acc h]
    simp
  | c :: rest, acc, h => by
    by_cases hc : c = '.'
    · subst hc
      rw [splitDots_dot]
      simp
    · rw [splitDots_char c hc]
      exact splitDots_ne_nil rest (acc ++ [c]) (by simp)

/-- The getline splitter returns no token only on an empty stream with an
empty accumulator. -/
theorem splitDots_eq_nil : ∀ (s acc : List Char),
    splitDots s acc = [] → s = [] ∧ acc = []
  | [], acc => by
    by_cases ha : acc = []
    · exact fun _ => ⟨rfl, ha⟩
    · rw [splitDots_nil_acc acc ha]
      simp
  | c :: rest, acc => by
    by_cases hc : c = '.'
    · subst hc
      rw [splitDots_dot]
      simp
    · rw [splitDots_char c hc]
      intro h
      exact absurd h (splitDots_ne_nil rest (acc ++ [c]) (by simp))

/-- Stripping a trailing dot from a cons whose head cannot be that dot (a
nonempty tail, or a non-dot head). -/
theorem strip_cons (c : Char) (rest : List Char)
    (h : rest ≠ [] ∨ c ≠ '.') :
    stripTrailingDot (c :: rest) = c :: stripTrailingDot rest := by
  cases rest with
  | nil =>
    rcases h with h | h
    · exact absurd rfl h
    · simp [stripTrailingDot, h]
  | cons a l =>
    simp only [stripTrailingDot, List.getLast?_cons_cons]
    cases hl : (a :: l).getLast? with
    | none => simp at hl
    | some x =>
      by_cases hx : x = '.'
      · subst hx
        simp [List.dropLast_cons₂]
      · simp [hx]

/-- Joining the getline tokens reproduces the accumulator followed by the
input with one trailing dot stripped. -/
theorem splitDots_join : ∀ (s acc : List Char), splitDots s acc ≠ [] →
    joinDots (splitDots s acc) = acc ++ stripTrailingDot s
  | [], acc, hne => by
    have hacc : acc ≠ [] := by
      intro h
      subst h
      exact hne rfl
    rw [splitDots_nil_acc acc hacc]
    simp [joinDots, stripTrailingDot]
  | c :: rest, acc, hne => by
    by_cases hc : c = '.'
    · subst hc
      rw [splitDots_dot]
      by_cases hrest : splitDots rest [] = []
      · obtain ⟨hr, -⟩ := splitDots_eq_nil rest [] hrest
        subst hr
        rw [hrest]
        simp [joinDots, stripTrailingDot]
      · obtain ⟨u, us, hus⟩ := List.exists_cons_of_ne_nil hrest
        have hrne : rest ≠ [] := by
          intro hr
          subst hr
          exact hrest rfl
        have hIH := splitDots_join rest [] hrest
        rw [hus] at hIH
        rw [strip_cons '.' rest (Or.inl hrne), hus]
        show acc ++ '.' :: joinDots (u :: us) = acc ++ '.' :: stripTrailingDot rest
        rw [hIH]
        simp
    · rw [splitDots_char c hc]
      have hne' : splitDots rest (acc ++ [c]) ≠ [] := by
        intro h
        apply hne
        rw [splitDots_char c hc]
        exact h
      rw [splitDots_join rest (acc ++ [c]) hne']
      rw [strip_cons c rest (Or.inr hc)]
      simp

/-- Tokens produced by the getline splitter never contain a dot. -/
theorem splitDots_no_dot : ∀ (s acc : List Char), ¬ '.' ∈ acc →
    ∀ t, t ∈ splitDots s acc → ¬ '.' ∈ t
  | [], acc, hacc => by
    by_cases ha : acc = []
    · subst ha
      intro t ht
      simp [splitDots] at ht
    · rw [splitDots_nil_acc acc ha]
      intro t ht
      simp only [List.mem_singleton] at ht
      exact ht ▸ hacc
  | c :: rest, acc, hacc => by
    by_cases hc : c = '.'
    · subst hc
      rw [splitDots_dot]
      intro t ht
      rcases List.mem_cons.mp ht with h | h
      · exact h ▸ hacc
      · exact splitDots_no_dot rest [] (by simp) t h
    · rw [splitDots_char c hc]
      intro t ht
      exact splitDots_no_dot rest (acc ++ [c]) (by
        simp only [List.mem_append, List.mem_singleton]
        rintro (h | h)
        · exact hacc h
        · exact hc h.symm) t ht

/-- Feeding a dot-free chunk to the splitter extends the accumulator. -/
theorem splitDots_prepend : ∀ (t s acc : List Char), ¬ '.' ∈ t →
    splitDots (t ++ s) acc = splitDots s (acc ++ t)
  | [], s, acc, _ => by simp
  | c :: t', s, acc, h => by
    have hc : ¬ c = '.' := by
      intro hc
      exact h (by simp [hc])
    rw [List.cons_append, splitDots_char c hc,
      splitDots_prepend t' s (acc ++ [c]) (by
        intro hd
        exact h (by simp [hd]))]
    simp

/-- Splitting the dot-join of nonempty dot-free tokens, with or without
one trailing dot, recovers the tokens. -/
theorem splitDots_round : ∀ toks : List (List Char), toks ≠ [] →
    (∀ t ∈ toks, t ≠ [] ∧ ¬ '.' ∈ t) →
    splitDots (joinDots toks) [] = toks ∧
    splitDots (joinDots toks ++ ['.']) [] = toks
  | [], h, _ => absurd rfl h
  | [t], _, hgood => by
    obtain ⟨htne, htdot⟩ := hgood t (by simp)
    constructor
    · show splitDots t [] = [t]
      have h1 := splitDots_prepend t [] [] htdot
      simp only [List.append_nil, List.nil_append] at h1
      rw [h1, splitDots_nil_acc t htne]
    · show splitDots (t ++ ['.']) [] = [t]
      rw [splitDots_prepend t ['.'] [] htdot]
      simp only [List.nil_append]
      rw [splitDots_dot]
      rfl
  | t :: t2 :: ts, _, hgood => by
    obtain ⟨htne, htdot⟩ := hgood t (by simp)
    have hgood' : ∀ u ∈ t2 :: ts, u ≠ [] ∧ ¬ '.' ∈ u := by
      intro u hu
      exact hgood u (by simp [hu])
    obtain ⟨hr1, hr2⟩ := splitDots_round (t2 :: ts) (by simp) hgood'
    constructor
    · show splitDots (t ++ '.' :: joinDots (t2 :: ts)) [] = t :: t2 :: ts
      rw [splitDots_prepend t _ [] htdot]
      simp only [List.nil_append]
      rw [splitDots_dot, hr1]
    · show splitDots ((t ++ '.' :: joinDots (t2 :: ts)) ++ ['.']) [] = t :: t2 :: ts
      rw [List.append_assoc, List.cons_append,
        splitDots_prepend t _ [] htdot]
      simp only [List.nil_append]
      rw [splitDots_dot, hr2]

/-- Every list is its trailing-dot-stripped form, possibly with the dot
restored. -/
theorem strip_inv (l : List Char) :
    l = stripTrailingDot l ∨ l = stripTrailingDot l ++ ['.'] := by
  by_cases h : l.getLast? = some '.'
  · right
    have hne : l ≠ [] := by
      intro hl
      rw [hl] at h
      simp at h
    have hlast : l.getLast hne = '.' := by
      have := List.getLast?_eq_getLast l hne
      rw [h] at this
      exact (Option.some.injEq .. ▸ this).symm
    simp only [stripTrailingDot, h, if_true]
    rw [← hlast]
    exact (List.dropLast_append_getLast hne).symm
  · left
    simp [stripTrailingDot, h]

/-- The spec's token characters never include the separator. -/
theorem good_char_ne_dot (c : Char) (h : good_char c = true) : ¬ c = '.' := by
  intro hc
  subst hc
  exact absurd h (by decide)

/-- Soundness of the accepted tokenization: the tokens are the getline
split, nonempty, dot-free, over the valid-character set. -/
theorem tokenize_sound (p : String) (toks : List (List Char))
    (h : tokenize_path p = some toks) :
    toks = splitDots p.data [] ∧ toks ≠ [] ∧
    ∀ t ∈ toks, t ≠ [] ∧ ¬ '.' ∈ t ∧ ∀ c ∈ t, valid_char c = true := by
  have hne := tokenize_nonempty p toks h
  simp only [tokenize_path] at h
  split at h
  · exact absurd h (by simp)
  · split at h
    · rename_i hnil hall
      cases h
      refine ⟨rfl, hne, ?_⟩
      intro t ht
      have hdot := splitDots_no_dot p.data [] (by simp) t ht
      rw [List.all_eq_true] at hall
      have := hall t ht
      simp only [Bool.and_eq_true, List.all_eq_true] at this
      refine ⟨by simpa [List.isEmpty_iff] using this.1, hdot, this.2⟩
    · exact absurd h (by simp)

/-- C4 (amended): re-joining the tokens of an accepted path reproduces the
input with a single trailing dot (if any) removed — the getline-based
splitter silently drops one trailing dot, so inputs like `"a."` are
accepted without round-tripping — and a path is accepted exactly when it
is a dot-join of nonempty tokens over `[A-Za-z0-9_]`, optionally followed
by one trailing dot; every other path (empty, empty token, invalid
character) is rejected with `ERR_INVALID`. -/
theorem tokenize_path_roundtrip_amended (p : String) :
    (∀ toks, tokenize_path p = some toks →
        joinDots toks = stripTrailingDot p.data ∧
        ∀ t ∈ toks, t ≠ [] ∧ ∀ c ∈ t, good_char c = true) ∧
    ((tokenize_path p).isSome = true ↔
      ∃ toks : List (List Char), toks ≠ [] ∧
        (∀ t ∈ toks, t ≠ [] ∧ ∀ c ∈ t, good_char c = true) ∧
        (p.data = joinDots toks ∨ p.data = joinDots toks ++ ['.'])) := by
  have fwd : ∀ toks, tokenize_path p = some toks →
      joinDots toks = stripTrailingDot p.data ∧
      ∀ t ∈ toks, t ≠ [] ∧ ∀ c ∈ t, good_char c = true := by
    intro toks h
    obtain ⟨hsplit, hne, hgood⟩ := tokenize_sound p toks h
    constructor
    · rw [hsplit]
      have := splitDots_join p.data [] (hsplit ▸ hne)
      simpa using this
    · intro t ht
      obtain ⟨htne, htdot, htval⟩ := hgood t ht
      refine ⟨htne, ?_⟩
      intro c hc
      have hv := htval c hc
      simp only [valid_char, Bool.or_eq_true] at hv
      simp only [good_char, Bool.or_eq_true]
      rcases hv with (hv | hv) | hv
      · exact Or.inl hv
      · exact Or.inr hv
      · rw [decide_eq_true_eq] at hv
        exact absurd (hv ▸ hc) htdot
  refine ⟨fwd, ?_, ?_⟩
  · intro hsome
    obtain ⟨toks, htoks⟩ := Option.isSome_iff_exists.mp hsome
    obtain ⟨hjoin, hgood⟩ := fwd toks htoks
    obtain ⟨hsplit, hne, -⟩ := tokenize_sound p toks htoks
    refine ⟨toks, hne, hgood, ?_⟩
    rcases strip_inv p.data with h | h
    · exact Or.inl (by rw [h, ← hjoin])
    · exact Or.inr (by rw [h, ← hjoin])
  · rintro ⟨toks, hne, hgood, hp⟩
    have hgood' : ∀ t ∈ toks, t ≠ [] ∧ ¬ '.' ∈ t := by
      intro t ht
      obtain ⟨htne, htgc⟩ := hgood t ht
      refine ⟨htne, ?_⟩
      intro hdot
      exact good_char_ne_dot '.' (htgc '.' hdot) rfl
    obtain ⟨hr1, hr2⟩ := splitDots_round toks hne hgood'
    have hsplit : splitDots p.data [] = toks := by
      rcases hp with h | h
      · rw [h, hr1]
      · rw [h, hr2]
    simp only [tokenize_path, hsplit]
    rw [if_neg (by simpa [List.isEmpty_iff] using hne)]
    rw [if_pos ?_]
    · rfl
    · rw [List.all_eq_true]
      intro t ht
      obtain ⟨htne, htgc⟩ := hgood t ht
      simp only [Bool.and_eq_true, List.all_eq_true]
      refine ⟨by simpa [List.isEmpty_iff] using htne, ?_⟩
      intro c hc
      have := htgc c hc
      simp only [good_char, Bool.or_eq_true] at this
      simp only [valid_char, Bool.or_eq_true]
      rcases this with h | h
      · exact Or.inl (Or.inl h)
      · exact Or.inl (Or.inr h)

/-- Counterexample to C4 as stated: the path `"a."` is accepted by
tokenization (the getline loop drops the trailing dot) yet re-joining its
tokens yields `"a"`, not the input; the trailing empty segment is neither
kept nor rejected. -/
theorem tokenize_roundtrip_counterexample :
    tokenize_path "a." = some [['a']] ∧ joinDots [['a']] ≠ "a.".data :=
  ⟨rfl, by decide⟩

/-- Witness for the amended tokenization claim: the two-token path
`"a.b"` round-trips exactly. -/
theorem tokenize_path_roundtrip_amended_witness :
    joinDots [['a'], ['b']] = stripTrailingDot "a.b".data :=
  ((tokenize_path_roundtrip_amended "a.b").1 [['a'], ['b']] rfl).1

end river
